import Mathlib

/-!
# Verification of the crime-analysis dashboard aggregation core

Shallow embedding of the aggregation functions of
`src/crime-analysis-app/frontend/script.js`:

* `filtrarPorData`   — date-range filter (script.js lines 80–91)
* `contarOcorrencias` — occurrence counter (script.js lines 101–114)
* `atualizarGraficoDistribuicao` — age-histogram binner (script.js lines 147–164)
* `inicializarGraficoModelo` — coefficient ranker (script.js lines 38–47)

JavaScript values reachable from parsed JSON are modelled by `JVal`.
JSON numbers are always finite, so numbers are modelled as rationals,
with an extra `NaN` point because the code explicitly tests `isNaN`.
(IEEE-754 rounding is not modelled; none of the verified properties
depend on it.  `±Infinity` is not representable in JSON and is omitted.)

A JavaScript `TypeError` (property access on `null`/`undefined`) is
modelled by `Option`: `none` means the operation threw.
-/

/-- JavaScript numbers as they appear in parsed JSON: a finite rational,
or `NaN` (the code tests `isNaN`, so the point is kept in the model). -/
inductive JNum : Type
  | fin (q : ℚ)
  | nan
  deriving DecidableEq

/-- JavaScript values reachable from parsed JSON, plus `undefined`
(the result of reading a missing property). -/
inductive JVal : Type
  | jundef
  | jnull
  | jbool (b : Bool)
  | jnum (n : JNum)
  | jstr (s : String)
  | jobj (fields : List (String × JVal))
  | jarr (elems : List JVal)

open JVal JNum

/-- JavaScript truthiness: `undefined`, `null`, `false`, `±0`, `NaN` and
`""` are falsy, everything else is truthy. -/
def jsFalsy : JVal → Bool
  | jundef => true
  | jnull => true
  | jbool b => !b
  | jnum (.fin q) => q == 0
  | jnum .nan => true
  | jstr s => s == ""
  | _ => false

/-- Value of a run of decimal digits; `none` if the character list is empty
or contains a non-digit. -/
def digitsToNat? (l : List Char) : Option ℕ :=
  if l ≠ [] && l.all (fun c => '0' ≤ c && c ≤ '9') then
    some (l.foldl (fun acc c => 10 * acc + (c.toNat - 48)) 0)
  else none

/-- Whether `s` is a canonical ECMAScript array index: the shortest decimal
numeral of an integer in `[0, 2^32 - 2]`. -/
def isArrayIndex (s : String) : Bool :=
  match digitsToNat? s.data with
  | some n => n ≤ 4294967294 && s == Nat.repr n
  | none => false

/-- Look up a key in an object's field list; a missing key reads as
`undefined`, as in JavaScript. -/
def lookupField (fs : List (String × JVal)) (k : String) : JVal :=
  match fs.find? (fun p => p.1 == k) with
  | some p => p.2
  | none => jundef

/-- JavaScript property read `v[k]`.  `none` models the `TypeError` thrown
when `v` is `null` or `undefined`.  Arrays expose `length` and their
canonical indices; strings expose `length` and their characters.  The
remaining prototype properties of primitives are abstracted to
`undefined` (none is read by the program under verification). -/
def getProp : JVal → String → Option JVal
  | jundef, _ => none
  | jnull, _ => none
  | jobj fs, k => some (lookupField fs k)
  | jarr xs, k =>
      some (if k == "length" then jnum (.fin xs.length)
            else match digitsToNat? k.data with
                 | some n => if isArrayIndex k then xs.getD n jundef else jundef
                 | none => jundef)
  | jstr s, k =>
      some (if k == "length" then jnum (.fin s.length)
            else match digitsToNat? k.data with
                 | some n =>
                     if isArrayIndex k then
                       match s.data.get? n with
                       | some c => jstr (String.mk [c])
                       | none => jundef
                     else jundef
                 | none => jundef)
  | jbool _, _ => some jundef
  | jnum _, _ => some jundef

/-- Decimal numeral of a rational.  Integers render exactly as JavaScript
renders integral numbers; the (unused in practice) non-integral case is
abstracted to a `num/den` form, which like JavaScript's decimal rendering
is never a canonical array index. -/
def ratRepr (q : ℚ) : String :=
  if q.den = 1 then q.num.repr else q.num.repr ++ "/" ++ q.den.repr

mutual

/-- JavaScript `ToString` as used when a value becomes a property key. -/
def toKey : JVal → String
  | jundef => "undefined"
  | jnull => "null"
  | jbool b => if b then "true" else "false"
  | jnum (.fin q) => ratRepr q
  | jnum .nan => "NaN"
  | jstr s => s
  | jobj _ => "[object Object]"
  | jarr xs => toKeyArr xs

/-- `Array.prototype.toString`: elements joined by `","`. -/
def toKeyArr : List JVal → String
  | [] => ""
  | x :: xs => toKeyElem x ++ (if xs.isEmpty then "" else ",") ++ toKeyArr xs

/-- An element inside `Array.prototype.join`: `null` and `undefined`
render as the empty string, all other values as their `ToString`. -/
def toKeyElem : JVal → String
  | jundef => ""
  | jnull => ""
  | jbool b => if b then "true" else "false"
  | jnum (.fin q) => ratRepr q
  | jnum .nan => "NaN"
  | jstr s => s
  | jobj _ => "[object Object]"
  | jarr xs => toKeyArr xs

end

/-! ## Dates

`new Date(string)` on the ISO `YYYY-MM-DD` strings produced by the API and
by the two `<input type="date">` elements yields the UTC-midnight
timestamp of a proleptic Gregorian date, and `Invalid Date` when the
components are out of range.  Non-ISO string formats are modelled as
invalid.  A timestamp is an integer count of milliseconds. -/

/-- Gregorian leap year. -/
def isLeap (y : ℕ) : Bool := (y % 4 == 0 && y % 100 != 0) || y % 400 == 0

/-- Number of days of month `m` (1–12) of year `y`. -/
def daysInMonth (y m : ℕ) : ℕ :=
  if m = 2 then (if isLeap y then 29 else 28)
  else [31, 28, 31, 30, 31, 30, 31, 31, 30, 31, 30, 31].getD (m - 1) 0

/-- Days between 1970-01-01 and the Gregorian date `y-m-d`
(standard civil-from-days inverse, floor divisions). -/
def daysFromCivil (y m d : ℤ) : ℤ :=
  let y' := if m ≤ 2 then y - 1 else y
  let era := y'.fdiv 400
  let yoe := y' - era * 400
  let mp := (m + 9) % 12
  let doy := (153 * mp + 2).fdiv 5 + d - 1
  let doe := yoe * 365 + yoe.fdiv 4 - yoe.fdiv 100 + doy
  era * 146097 + doe - 719468

/-- Split a character list at every occurrence of `c`
(like `String.prototype.split` with a single-character separator). -/
def splitOnChar (c : Char) : List Char → List (List Char)
  | [] => [[]]
  | x :: xs =>
      let r := splitOnChar c xs
      if x == c then [] :: r
      else match r with
           | [] => [[x]]
           | h :: t => (x :: h) :: t

/-- `new Date(s).getTime()` for a string: parses `YYYY-MM-DD` to the
UTC-midnight millisecond timestamp; `none` models `Invalid Date`. -/
def parseDateStr (s : String) : Option ℤ :=
  match splitOnChar '-' s.data with
  | [ys, ms, ds] =>
      if ys.length == 4 && ms.length == 2 && ds.length == 2 then
        match digitsToNat? ys, digitsToNat? ms, digitsToNat? ds with
        | some y, some m, some d =>
            if 1 ≤ m ∧ m ≤ 12 ∧ 1 ≤ d ∧ d ≤ daysInMonth y m then
              some (86400000 * daysFromCivil y m d)
            else none
        | _, _, _ => none
      else none
  | _ => none

/-- `new Date(v).getTime()` for the field value found in a record:
strings parse as above; a number is its own timestamp (fractional
milliseconds truncated); booleans and `null` coerce to `1`/`0`;
`undefined` and `NaN` give `Invalid Date`.  Objects and arrays date-parse
via their `toString`, which for the values in scope is invalid
(abstraction). -/
def jsNewDate : JVal → Option ℤ
  | jstr s => parseDateStr s
  | jnum (.fin q) => some ⌊q⌋
  | jnum .nan => none
  | jbool b => some (if b then 1 else 0)
  | jnull => some 0
  | jundef => none
  | jobj _ => none
  | jarr _ => none

/-- JavaScript `d >= b` on dates: `true` iff both timestamps are valid and
`b ≤ d`; any `Invalid Date` compares `false`.  The bound `none` is the
JavaScript `null` bound, short-circuited by `!dataInicio ||`. -/
def geOpt (d : Option ℤ) : Option (Option ℤ) → Bool
  | none => true
  | some b =>
      match d, b with
      | some x, some y => decide (y ≤ x)
      | _, _ => false

/-- JavaScript `d <= b` on dates, with `none` the absent (`null`) bound. -/
def leOpt (d : Option ℤ) : Option (Option ℤ) → Bool
  | none => true
  | some b =>
      match d, b with
      | some x, some y => decide (x ≤ y)
      | _, _ => false

/-- Body of the `casos.filter(...)` callback of `filtrarPorData`
(script.js lines 84–90): records with a falsy `data_do_caso` are dropped;
otherwise the field is date-parsed and compared against the optional
bounds.  `none` models the `TypeError` thrown when the record itself is
`null`/`undefined`. -/
def keepCaso (inicio fim : String) (caso : JVal) : Option Bool :=
  (getProp caso "data_do_caso").map (fun v =>
    if jsFalsy v then false
    else
      let data := jsNewDate v
      let dataInicio : Option (Option ℤ) :=
        if inicio == "" then none else some (parseDateStr inicio)
      let dataFim : Option (Option ℤ) :=
        if fim == "" then none else some (parseDateStr fim)
      geOpt data dataInicio && leOpt data dataFim)

/-- `filtrarPorData` (script.js lines 80–91): keeps, in order, the records
whose `data_do_caso` passes `keepCaso`.  `inicio` and `fim` are the raw
values of the two date inputs (`""` when empty).  `none` models an
uncaught `TypeError`. -/
def filtrarPorData (casos : List JVal) (inicio fim : String) : Option (List JVal) :=
  casos.foldr
    (fun c acc =>
      match keepCaso inicio fim c, acc with
      | some true, some rest => some (c :: rest)
      | some false, some rest => some rest
      | _, _ => none)
    (some [])

/-! ## Stable sorting and JavaScript object key order -/

/-- Insert `x` before the first element `y` with `le x y`.  This is the
insertion step of a stable insertion sort. -/
def insertLe {α : Type _} (le : α → α → Bool) (x : α) : List α → List α
  | [] => [x]
  | y :: ys => if le x y then x :: y :: ys else y :: insertLe le x ys

/-- Stable insertion sort: the result of a specification-conforming
`Array.prototype.sort` (ECMAScript sorts are stable) for a consistent
comparator `le` (`le a b` = "a may be placed before b"). -/
def insertionSort {α : Type _} (le : α → α → Bool) : List α → List α
  | [] => []
  | x :: xs => insertLe le x (insertionSort le xs)

/-- Numeric value of an array-index key (only applied to such keys). -/
def numKey (s : String) : ℕ := (digitsToNat? s.data).getD 0

/-- ECMAScript own-property enumeration order of a plain object whose
properties were created in the order of the association list `m`:
canonical array-index keys first, in ascending numeric order, then the
remaining string keys in creation order.  This is the order `Object.keys`
/ `Object.entries` report. -/
def jsOwnOrder {β : Type _} (m : List (String × β)) : List (String × β) :=
  insertionSort (fun a b => Nat.ble (numKey a.1) (numKey b.1))
      (m.filter (fun p => isArrayIndex p.1)) ++
    m.filter (fun p => !isArrayIndex p.1)

/-! ## The occurrence counter `contarOcorrencias` (script.js lines 101–114) -/

/-- Property read on a truthy base: never throws, so the `Option` of
`getProp` is exact (`getD` is never used at its default). -/
def getPropTruthy (o : JVal) (k : String) : JVal := (getProp o k).getD jundef

/-- `chave.split('.').reduce((o, k) => o && o[k], caso)`: left fold that
short-circuits, returning the accumulator itself, as soon as it is falsy,
and otherwise reads the next property.  A falsy accumulator is never
`null`/`undefined`-dereferenced, so this expression never throws. -/
def dottedResolve (caso : JVal) (ks : List String) : JVal :=
  ks.foldl (fun o k => if jsFalsy o then o else getPropTruthy o k) caso

/-- `chave.split('.')` for the model. -/
def jsSplitDot (chave : String) : List String :=
  (splitOnChar '.' chave.data).map String.mk

/-- The grouping value of one record (script.js lines 105–107):
a dotted key resolves by the short-circuiting fold, a plain key by a
direct property read.  `none` models the `TypeError` a direct read throws
on a `null`/`undefined` record (caught by the surrounding `try`). -/
def resolveChave (chave : String) (caso : JVal) : Option JVal :=
  if chave.data.contains '.' then some (dottedResolve caso (jsSplitDot chave))
  else getProp caso chave

/-- `contagem[valor] = (contagem[valor] || 0) + 1` on the insertion-ordered
association list backing the model of the count object: an existing key
keeps its position, a new key is appended. -/
def incr : List (String × ℕ) → String → List (String × ℕ)
  | [], k => [(k, 1)]
  | p :: m, k => if p.1 == k then (p.1, p.2 + 1) :: m else p :: incr m k

/-- The count object built by the `forEach` loop of `contarOcorrencias`,
as an association list in property-creation order.  A record contributes
iff its resolved value is neither `undefined` nor `null`; a resolution
that threw (`none`) is swallowed by the empty `catch`. -/
def rawCounts (dados : List JVal) (chave : String) : List (String × ℕ) :=
  dados.foldl
    (fun m caso =>
      match resolveChave chave caso with
      | none => m
      | some jundef => m
      | some jnull => m
      | some v => incr m (toKey v))
    []

/-- `contarOcorrencias` (script.js lines 101–114) as observed through
`Object.keys`/`Object.entries` by its consumers: the count object in
ECMAScript enumeration order. -/
def contarOcorrencias (dados : List JVal) (chave : String) : List (String × ℕ) :=
  jsOwnOrder (rawCounts dados chave)

/-- Modelled from the spec (§4.2), for comparison with the code: nested-path
resolution that "short-circuits to absent the moment an intermediate value
is missing or not traversable" — only mappings are traversable, and a
missing key or non-mapping intermediate yields `none` (absent). -/
def specResolvePath : JVal → List String → Option JVal
  | v, [] => some v
  | jobj fs, k :: ks =>
      match fs.find? (fun p => p.1 == k) with
      | some p => specResolvePath p.2 ks
      | none => none
  | _, _ :: _ => none

/-! ## The age histogram `atualizarGraficoDistribuicao` (script.js lines 147–164) -/

/-- `c.vitima?.idade`: reading `vitima` throws on a `null`/`undefined`
record (`none`); optional chaining then yields `undefined` if `vitima` is
nullish and reads `idade` otherwise (a read on a non-nullish base, which
never throws). -/
def resolveIdade (c : JVal) : Option JVal :=
  (getProp c "vitima").map (fun v =>
    match v with
    | jundef => jundef
    | jnull => jundef
    | v => getPropTruthy v "idade")

/-- The filter `typeof i === 'number' && !isNaN(i) && i > 0` on a resolved
value, returning the age when it passes. -/
def idadeValue : JVal → Option ℚ
  | jnum (.fin q) => if 0 < q then some q else none
  | _ => none

/-- `Array.prototype.map` with a callback that may throw: the whole map
throws (`none`) as soon as one element does. -/
def mapThrow (f : JVal → Option JVal) : List JVal → Option (List JVal)
  | [] => some []
  | c :: cs =>
      match f c, mapThrow f cs with
      | some v, some vs => some (v :: vs)
      | _, _ => none

/-- The `idades` array (script.js lines 148–150): resolved ages of all
records, keeping the positive numeric ones.  `none` models the
`TypeError` on a `null`/`undefined` record. -/
def extractIdades (ds : List JVal) : Option (List ℚ) :=
  (mapThrow resolveIdade ds).map (fun vs => vs.filterMap idadeValue)

/-- `Math.max(...idades, 100)` (script.js line 152). -/
def histBound (idades : List ℚ) : ℚ := idades.foldl max 100

/-- Number of iterations of `for (let i = 1; i <= max; i += 10)`
(script.js line 156): the number of `k ≥ 0` with `1 + 10k ≤ max`, that is
`⌊(max - 1) / 10⌋ + 1` when `max ≥ 1` (see `numBins_eq_floor` and the
loop-guard characterisation `lt_numBins_iff`).  Stated over `⌊max⌋` so
that the kernel can evaluate it (rational division is sealed). -/
def numBins (b : ℚ) : ℕ := if b < 1 then 0 else ((⌊b⌋ - 1) / 10).toNat + 1

/-- Bin label `` `${i}-${i + 9}` `` for the `k`-th iteration, `i = 1 + 10k`. -/
def binLabel (k : ℕ) : String := (1 + 10 * k : ℤ).repr ++ "-" ++ (10 * k + 10 : ℤ).repr

/-- The `labels` array pushed by the bin-building loop. -/
def histLabels (b : ℚ) : List String := (List.range (numBins b)).map binLabel

/-- `Math.floor((idade - 1) / 10)` (script.js line 162), in the
kernel-evaluable form `(⌊idade⌋ - 1) / 10`; `binIndex_eq_floor` proves it
equal to the source formula. -/
def binIndex (a : ℚ) : ℤ := (⌊a⌋ - 1) / 10

/-- One iteration of the counting loop (script.js lines 161–163): increment
`bins[index]` when `0 <= index < bins.length`, otherwise do nothing. -/
def bumpBin (bins : List ℕ) (a : ℚ) : List ℕ :=
  if 0 ≤ binIndex a ∧ binIndex a < (bins.length : ℤ) then
    bins.set (binIndex a).toNat (bins.getD (binIndex a).toNat 0 + 1)
  else bins

/-- The `bins` array after the counting loop, starting from `n` zeroes. -/
def histCounts (idades : List ℚ) (n : ℕ) : List ℕ :=
  idades.foldl bumpBin (List.replicate n 0)

/-- The chart-ready output of `atualizarGraficoDistribuicao`
(script.js lines 147–164): parallel label and count sequences.
`none` models the uncaught `TypeError` on a `null`/`undefined` record. -/
def atualizarGraficoDistribuicao (ds : List JVal) : Option (List String × List ℕ) :=
  (extractIdades ds).map (fun idades =>
    (histLabels (histBound idades), histCounts idades (numBins (histBound idades))))

/-! ## The coefficient ranker `inicializarGraficoModelo` (script.js lines 38–47) -/

/-- JavaScript whitespace stripped by `Number(string)`. -/
def isWS (c : Char) : Bool := c == ' ' || c == '\t' || c == '\n' || c == '\r'

/-- Strip leading and trailing whitespace. -/
def jsTrim (l : List Char) : List Char :=
  ((l.dropWhile isWS).reverse.dropWhile isWS).reverse

/-- `Number(string)`: `""` (after trimming) is `0`; an optional sign
followed by decimal digits, with an optional fractional part, is the
denoted rational; anything else is `NaN`.  (Exponent, hexadecimal and
`Infinity` forms are not modelled; no such coefficient values occur.) -/
def parseNumber (s : String) : JNum :=
  let t := jsTrim s.data
  if t = [] then .fin 0
  else
    let p : ℤ × List Char :=
      match t with
      | '-' :: rest => (-1, rest)
      | '+' :: rest => (1, rest)
      | _ => (1, t)
    match splitOnChar '.' p.2 with
    | [w] =>
        match digitsToNat? w with
        | some n => .fin (mkRat (p.1 * n) 1)
        | none => .nan
    | [w, f] =>
        if w = [] ∧ f = [] then .nan
        else
          let wn := if w = [] then some 0 else digitsToNat? w
          let fn := if f = [] then some 0 else digitsToNat? f
          match wn, fn with
          | some a, some b => .fin (mkRat (p.1 * (a * 10 ^ f.length + b)) (10 ^ f.length))
          | _, _ => .nan
    | _ => .nan

/-- `Number(v)` (script.js line 40) on a JSON value: numbers unchanged,
strings parsed, `null`/booleans coerced, everything else `NaN`.
(`Number([])` is `0` in JavaScript; arrays do not occur as coefficient
values and are abstracted to `NaN`.) -/
def toNumber : JVal → JNum
  | jnum n => n
  | jnull => .fin 0
  | jundef => .nan
  | jbool b => .fin (if b then 1 else 0)
  | jstr s => parseNumber s
  | jobj _ => .nan
  | jarr _ => .nan

/-- `Math.abs` as used by the comparator.  A `NaN` comparator result makes
`Array.prototype.sort` treat the pair as equal (engine order for an
inconsistent comparator is unspecified); modelling `NaN` as magnitude `0`
realises that tie.  The ranked claims assume `NaN`-free input. -/
def jabsVal : JNum → ℚ
  | .fin q => |q|
  | .nan => 0

/-- The `processedData` object (script.js lines 38–41) as reported by
`Object.entries`: the coefficient map in ECMAScript enumeration order,
each value coerced by `Number`. -/
def processEntries (data : List (String × JVal)) : List (String × JNum) :=
  (jsOwnOrder data).map (fun p => (p.1, toNumber p.2))

/-- `sortedEntries` (script.js lines 43–44): the processed entries sorted
by the stable `Array.prototype.sort` under the comparator
`(a, b) => Math.abs(b[1]) - Math.abs(a[1])` (descending magnitude). -/
def sortedEntries (data : List (String × JVal)) : List (String × JNum) :=
  insertionSort (fun a b => decide (jabsVal b.2 ≤ jabsVal a.2)) (processEntries data)

/-- The `labels` of the model chart (script.js line 46). -/
def modeloLabels (data : List (String × JVal)) : List String :=
  (sortedEntries data).map Prod.fst

/-- The `valores` of the model chart (script.js line 47): the signed
coefficient values in ranked order. -/
def modeloValores (data : List (String × JVal)) : List JNum :=
  (sortedEntries data).map Prod.snd

/-- The key a record contributes to the count object, if any: `none` when
resolution threw or produced `undefined`/`null`. -/
def keyOf? (chave : String) (caso : JVal) : Option String :=
  match resolveChave chave caso with
  | none => none
  | some jundef => none
  | some jnull => none
  | some v => some (toKey v)

/-- The count object obtained by folding `incr` over a key sequence. -/
def countsList (ks : List String) : List (String × ℕ) := ks.foldl incr []

/-- `contagem[k] || 0`: the count stored for `k`, `0` when absent. -/
def lookupCount : List (String × ℕ) → String → ℕ
  | [], _ => 0
  | p :: m, k => if p.1 == k then p.2 else lookupCount m k

/-- The distinct values of a list in order of first occurrence. -/
def firstOccur : List String → List String
  | [] => []
  | k :: ks => k :: firstOccur (ks.filter (fun x => !(x == k)))
termination_by l => l.length
decreasing_by
  simp only [List.length_cons]
  exact Nat.lt_succ_of_le (List.length_filter_le _ _)

/-- The optional bound a date-input string denotes: `some none` for the
empty input (no bound), `some (some t)` for a string parsing to timestamp
`t`, and `none` for a string that denotes no valid bound at all. -/
def boundDate (s : String) : Option (Option ℤ) :=
  if s == "" then some none else (parseDateStr s).map some

/-! ## Generic lemmas: stable insertion sort -/

open List in
theorem mem_insertLe {α : Type _} (le : α → α → Bool) (x : α) (l : List α) (z : α) :
    z ∈ insertLe le x l ↔ z = x ∨ z ∈ l := by
  induction l with
  | nil => simp [insertLe]
  | cons y ys ih =>
      by_cases h : le x y
      · simp only [insertLe, h, if_pos]
        simp [or_comm, or_assoc, or_left_comm]
      · simp only [insertLe, h, if_neg, Bool.false_eq_true, not_false_eq_true, List.mem_cons, ih]
        tauto

open List in
theorem insertLe_perm {α : Type _} (le : α → α → Bool) (x : α) (l : List α) :
    List.Perm (insertLe le x l) (x :: l) := by
  induction l with
  | nil => rfl
  | cons y ys ih =>
      by_cases h : le x y
      · simp [insertLe, h]
      · simp only [insertLe, h, if_neg, Bool.false_eq_true, not_false_eq_true]
        exact (ih.cons y).trans (List.Perm.swap x y ys)

theorem insertionSort_perm {α : Type _} (le : α → α → Bool) (l : List α) :
    List.Perm (insertionSort le l) l := by
  induction l with
  | nil => rfl
  | cons x xs ih => exact (insertLe_perm le x (insertionSort le xs)).trans (ih.cons x)

theorem pairwise_insertLe {α : Type _} (le : α → α → Bool)
    (total : ∀ a b, le a b || le b a) (trans : ∀ a b c, le a b → le b c → le a c)
    (x : α) (l : List α) (h : l.Pairwise (fun a b => le a b)) :
    (insertLe le x l).Pairwise (fun a b => le a b) := by
  induction l with
  | nil => simp [insertLe]
  | cons y ys ih =>
      rcases List.pairwise_cons.mp h with ⟨hy, hys⟩
      by_cases hxy : le x y
      · have hrw : insertLe le x (y :: ys) = x :: y :: ys := by
          simp [insertLe, hxy]
        rw [hrw]
        refine List.pairwise_cons.mpr ⟨?_, h⟩
        intro z hz
        rcases List.mem_cons.mp hz with rfl | hz
        · exact hxy
        · exact trans x y z hxy (hy z hz)
      · have hyx : le y x := by
          have := total x y
          simp only [hxy, Bool.false_or] at this
          exact this
        have hrw : insertLe le x (y :: ys) = y :: insertLe le x ys := by
          simp [insertLe, hxy]
        rw [hrw]
        refine List.pairwise_cons.mpr ⟨?_, ih hys⟩
        intro z hz
        rcases (mem_insertLe le x ys z).mp hz with rfl | hz
        · exact hyx
        · exact hy z hz

theorem insertionSort_pairwise {α : Type _} (le : α → α → Bool)
    (total : ∀ a b, le a b || le b a) (trans : ∀ a b c, le a b → le b c → le a c)
    (l : List α) : (insertionSort le l).Pairwise (fun a b => le a b) := by
  induction l with
  | nil => simp [insertionSort]
  | cons x xs ih => exact pairwise_insertLe le total trans x _ ih

theorem sublist_insertLe {α : Type _} (le : α → α → Bool) (x : α) (l : List α) :
    List.Sublist l (insertLe le x l) := by
  induction l with
  | nil => simp [insertLe]
  | cons y ys ih =>
      by_cases h : le x y
      · have hrw : insertLe le x (y :: ys) = x :: y :: ys := by simp [insertLe, h]
        rw [hrw]
        exact List.sublist_cons_self x (y :: ys)
      · have hrw : insertLe le x (y :: ys) = y :: insertLe le x ys := by simp [insertLe, h]
        rw [hrw]
        exact ih.cons₂ y

theorem pair_sublist_insertLe {α : Type _} (le : α → α → Bool) {x b : α} (l : List α)
    (hxb : le x b) (hb : b ∈ l) : List.Sublist [x, b] (insertLe le x l) := by
  induction l with
  | nil => cases hb
  | cons y ys ih =>
      by_cases h : le x y
      · have hrw : insertLe le x (y :: ys) = x :: y :: ys := by simp [insertLe, h]
        rw [hrw]
        exact (List.singleton_sublist.mpr hb).cons₂ x
      · have hrw : insertLe le x (y :: ys) = y :: insertLe le x ys := by simp [insertLe, h]
        rw [hrw]
        rcases List.mem_cons.mp hb with rfl | hb
        · exact absurd hxb (by simpa using h)
        · exact (ih hb).cons y

theorem pair_sublist_insertionSort {α : Type _} (le : α → α → Bool) {a b : α}
    (l : List α) (hab : le a b) (h : List.Sublist [a, b] l) :
    List.Sublist [a, b] (insertionSort le l) := by
  induction l with
  | nil => cases h
  | cons x xs ih =>
      cases h with
      | cons _ h => exact ((ih h).trans (sublist_insertLe le x (insertionSort le xs)))
      | cons₂ _ h =>
          have hb : b ∈ insertionSort le xs :=
            (insertionSort_perm le xs).mem_iff.mpr (List.singleton_sublist.mp h)
          exact pair_sublist_insertLe le _ hab hb

/-! ## Generic lemmas: floor arithmetic bridging the integer forms to the
source formulas -/

theorem floor_sub_one_div_ten (a : ℚ) : ⌊(a - 1) / 10⌋ = (⌊a⌋ - 1) / 10 := by
  refine eq_of_forall_le_iff (fun z => ?_)
  rw [Int.le_floor, le_div_iff₀ (by norm_num : (0 : ℚ) < 10),
    Int.le_ediv_iff_mul_le (by norm_num : (0 : ℤ) < 10)]
  constructor
  · intro hz
    have : (z * 10 + 1 : ℤ) ≤ ⌊a⌋ := by
      rw [Int.le_floor]
      push_cast
      linarith
    omega
  · intro hz
    have : (z * 10 + 1 : ℤ) ≤ ⌊a⌋ := by omega
    have := Int.le_floor.mp this
    push_cast at this
    linarith

/-- `binIndex` is the source formula `Math.floor((idade - 1) / 10)`. -/
theorem binIndex_eq_floor (a : ℚ) : binIndex a = ⌊(a - 1) / 10⌋ :=
  (floor_sub_one_div_ten a).symm

/-- `numBins` is `⌊(max - 1) / 10⌋ + 1` for the bounds that actually occur
(`max ≥ 100 ≥ 1`). -/
theorem numBins_eq_floor (b : ℚ) (hb : 1 ≤ b) :
    (numBins b : ℤ) = ⌊(b - 1) / 10⌋ + 1 := by
  have h1 : ¬ b < 1 := not_lt.mpr hb
  have hfl : (0 : ℤ) ≤ (⌊b⌋ - 1) / 10 := by
    refine Int.ediv_nonneg ?_ (by norm_num)
    have : (1 : ℤ) ≤ ⌊b⌋ := by
      rw [Int.le_floor]; exact_mod_cast hb
    omega
  rw [numBins, if_neg h1, floor_sub_one_div_ten]
  push_cast [Int.toNat_of_nonneg hfl]
  ring

/-- Loop-guard characterisation: the loop `for (let i = 1; i <= max; i += 10)`
performs its `k`-th iteration (`i = 1 + 10k`) iff `k < numBins max`. -/
theorem lt_numBins_iff (b : ℚ) (k : ℕ) :
    k < numBins b ↔ (1 + 10 * k : ℚ) ≤ b := by
  by_cases hb : b < 1
  · simp only [numBins, if_pos hb]
    constructor
    · omega
    · intro h
      exfalso
      have : (0 : ℚ) ≤ 10 * k := by positivity
      linarith
  · push_neg at hb
    simp only [numBins, if_neg (not_lt.mpr hb)]
    have hfl : (0 : ℤ) ≤ (⌊b⌋ - 1) / 10 := by
      refine Int.ediv_nonneg ?_ (by norm_num)
      have : (1 : ℤ) ≤ ⌊b⌋ := by rw [Int.le_floor]; exact_mod_cast hb
      omega
    rw [show (k < ((⌊b⌋ - 1) / 10).toNat + 1) ↔ ((k : ℤ) ≤ (⌊b⌋ - 1) / 10) by omega,
      Int.le_ediv_iff_mul_le (by norm_num : (0 : ℤ) < 10)]
    rw [show ((k : ℤ) * 10 ≤ ⌊b⌋ - 1) ↔ ((1 + 10 * k : ℤ) ≤ ⌊b⌋) by omega, Int.le_floor]
    push_cast
    exact Iff.rfl

/-! ## Counter lemmas -/

theorem lookupCount_incr (m : List (String × ℕ)) (k' k : String) :
    lookupCount (incr m k') k = lookupCount m k + (if k' == k then 1 else 0) := by
  induction m with
  | nil =>
      by_cases h : k' = k
      · subst h; simp [incr, lookupCount]
      · simp [incr, lookupCount, beq_iff_eq, h]
  | cons p m ih =>
      simp only [incr]
      by_cases h1 : p.1 = k'
      · rw [if_pos (beq_iff_eq.mpr h1)]
        by_cases h2 : k' = k
        · subst h2
          simp [lookupCount, beq_iff_eq, h1]
        · have hp : p.1 ≠ k := fun hpk => h2 (h1.symm.trans hpk)
          simp [lookupCount, beq_iff_eq, hp, h2]
      · rw [if_neg (by simp [beq_iff_eq, h1])]
        by_cases h2 : p.1 = k
        · have hk : k' ≠ k := fun hkk => h1 (h2.trans hkk.symm)
          simp [lookupCount, beq_iff_eq, h2, hk]
        · simp [lookupCount, beq_iff_eq, h2, ih]

theorem map_fst_incr (m : List (String × ℕ)) (k : String) :
    (incr m k).map Prod.fst =
      if (m.map Prod.fst).contains k then m.map Prod.fst else m.map Prod.fst ++ [k] := by
  induction m with
  | nil => simp [incr]
  | cons p m ih =>
      by_cases h : p.1 = k
      · simp [incr, h]
      · have hc : (p.1 == k) = false := by simp [beq_iff_eq, h]
        have hkp : (k == p.1) = false := by
          simp only [beq_eq_false_iff_ne, ne_eq]
          exact fun hkk => h hkk.symm
        have hcc : (p.1 :: m.map Prod.fst).contains k =
            ((k == p.1) || (m.map Prod.fst).contains k) := rfl
        by_cases hm : (m.map Prod.fst).contains k
        · simp only [incr, hc, Bool.false_eq_true, if_neg, not_false_eq_true, List.map_cons, ih]
          rw [if_pos hm, hcc, hkp, hm]
          simp
        · have hm' : (m.map Prod.fst).contains k = false := by simpa using hm
          simp only [incr, hc, Bool.false_eq_true, if_neg, not_false_eq_true, List.map_cons, ih]
          rw [if_neg hm, hcc, hkp, hm']
          simp

theorem foldl_incr_lookupCount (ks : List String) :
    ∀ (m : List (String × ℕ)) (k : String),
      lookupCount (ks.foldl incr m) k = lookupCount m k + ks.count k := by
  induction ks with
  | nil => simp
  | cons k' ks ih =>
      intro m k
      simp only [List.foldl_cons]
      rw [ih, lookupCount_incr, List.count_cons]
      by_cases h : k' = k
      · subst h; simp; omega
      · have h1 : (k' == k) = false := by simp [beq_iff_eq, h]
        have h2 : (k == k') = false := by
          simp only [beq_eq_false_iff_ne, ne_eq]
          exact fun hkk => h hkk.symm
        simp [h1, h2]

theorem not_contains_append_singleton (l : List String) (k x : String) :
    (!(l ++ [k]).contains x) = (!(x == k) && !l.contains x) := by
  by_cases h : x = k <;> by_cases h2 : x ∈ l <;> simp [h, h2]

theorem foldl_incr_map_fst (ks : List String) :
    ∀ (m : List (String × ℕ)),
      (ks.foldl incr m).map Prod.fst =
        m.map Prod.fst ++ firstOccur (ks.filter (fun x => !(m.map Prod.fst).contains x)) := by
  induction ks with
  | nil => simp [firstOccur]
  | cons k ks ih =>
      intro m
      simp only [List.foldl_cons, List.filter_cons]
      by_cases hk : (m.map Prod.fst).contains k
      · rw [ih, map_fst_incr, if_pos hk, hk]
        simp
      · have hk' : (m.map Prod.fst).contains k = false := by simpa using hk
        rw [ih, map_fst_incr, if_neg hk, hk']
        simp only [Bool.not_false, if_pos]
        rw [show (firstOccur (k :: ks.filter (fun x => !(m.map Prod.fst).contains x))) =
            k :: firstOccur ((ks.filter (fun x => !(m.map Prod.fst).contains x)).filter
              (fun x => !(x == k))) from by rw [firstOccur]]
        rw [List.filter_filter]
        have harg : (fun x => !(m.map Prod.fst ++ [k]).contains x) =
            (fun x => !(x == k) && !(m.map Prod.fst).contains x) := by
          funext x
          exact not_contains_append_singleton _ _ _
        rw [harg]
        simp

theorem rawCounts_eq (dados : List JVal) (chave : String) :
    rawCounts dados chave = countsList (dados.filterMap (keyOf? chave)) := by
  suffices h : ∀ (ds : List JVal) (m : List (String × ℕ)),
      ds.foldl
        (fun m caso =>
          match resolveChave chave caso with
          | none => m
          | some jundef => m
          | some jnull => m
          | some v => incr m (toKey v))
        m
        = (ds.filterMap (keyOf? chave)).foldl incr m by
    exact h dados []
  intro ds
  induction ds with
  | nil => intro m; rfl
  | cons c cs ih =>
      intro m
      simp only [List.foldl_cons, List.filterMap_cons]
      cases hv : resolveChave chave c with
      | none => simp [keyOf?, hv, ih]
      | some v => cases v <;> simp [keyOf?, hv, ih]

theorem countsList_map_fst (ks : List String) :
    (countsList ks).map Prod.fst = firstOccur ks := by
  have h := foldl_incr_map_fst ks []
  simpa [countsList] using h

theorem countsList_lookup (ks : List String) (k : String) :
    lookupCount (countsList ks) k = ks.count k := by
  have h := foldl_incr_lookupCount ks [] k
  simpa [countsList, lookupCount] using h

/-! ## Enumeration-order lemmas -/

theorem jsOwnOrder_perm {β : Type _} (m : List (String × β)) :
    List.Perm (jsOwnOrder m) m := by
  unfold jsOwnOrder
  exact ((insertionSort_perm _ _).append_right _).trans (List.filter_append_perm _ m)

theorem jsOwnOrder_eq_of_no_index {β : Type _} (m : List (String × β))
    (h : ∀ p ∈ m, isArrayIndex p.1 = false) : jsOwnOrder m = m := by
  unfold jsOwnOrder
  have h1 : m.filter (fun p => isArrayIndex p.1) = [] := by
    rw [List.filter_eq_nil_iff]
    intro p hp
    simp [h p hp]
  have h2 : m.filter (fun p => !isArrayIndex p.1) = m := by
    rw [List.filter_eq_self]
    intro p hp
    simp [h p hp]
  rw [h1, h2]
  rfl

/-! ## Histogram lemmas -/

theorem binIndex_nonneg_iff (a : ℚ) : 0 ≤ binIndex a ↔ 1 ≤ a := by
  unfold binIndex
  have h1 : (1 : ℚ) ≤ a ↔ (1 : ℤ) ≤ ⌊a⌋ := by
    rw [Int.le_floor]
    norm_num
  rw [h1]
  omega

theorem binIndex_eq_neg_one {a : ℚ} (h0 : 0 < a) (h1 : a < 1) : binIndex a = -1 := by
  have hf : ⌊a⌋ = 0 := Int.floor_eq_zero_iff.mpr ⟨h0.le, h1⟩
  unfold binIndex
  rw [hf]
  decide

theorem binIndex_lt_numBins {a b : ℚ} (hab : a ≤ b) (hb : 1 ≤ b) :
    binIndex a < (numBins b : ℤ) := by
  have hfloor : ⌊a⌋ ≤ ⌊b⌋ := Int.floor_le_floor hab
  have h1 : (1 : ℤ) ≤ ⌊b⌋ := by
    rw [Int.le_floor]
    exact_mod_cast hb
  have hdiv : (⌊a⌋ - 1) / 10 ≤ (⌊b⌋ - 1) / 10 :=
    Int.ediv_le_ediv (by norm_num) (by omega)
  have hnn : 0 ≤ (⌊b⌋ - 1) / 10 := Int.ediv_nonneg (by omega) (by norm_num)
  unfold binIndex numBins
  rw [if_neg (not_lt.mpr hb)]
  push_cast [Int.toNat_of_nonneg hnn]
  omega

theorem sum_set_getD_add_one : ∀ (l : List ℕ) (i : ℕ), i < l.length →
    (l.set i (l.getD i 0 + 1)).sum = l.sum + 1 := by
  intro l
  induction l with
  | nil => intro i h; simp at h
  | cons x l ih =>
      intro i h
      cases i with
      | zero =>
          simp only [List.set, List.sum_cons, List.getD, List.get?_cons_zero, Option.getD_some]
          omega
      | succ i =>
          have hlen : i < l.length := by simpa using h
          have := ih i hlen
          simp only [List.set, List.sum_cons, List.getD_cons_succ, this]
          omega

theorem bumpBin_length (bins : List ℕ) (a : ℚ) :
    (bumpBin bins a).length = bins.length := by
  unfold bumpBin
  split
  · simp
  · rfl

theorem foldl_max_init_le : ∀ (l : List ℚ) (init : ℚ), init ≤ l.foldl max init := by
  intro l
  induction l with
  | nil => intro init; simp
  | cons x l ih =>
      intro init
      simp only [List.foldl_cons]
      exact le_trans (le_max_left init x) (ih (max init x))

theorem mem_le_foldl_max : ∀ (l : List ℚ) (a : ℚ), a ∈ l → ∀ init : ℚ, a ≤ l.foldl max init := by
  intro l
  induction l with
  | nil => intro a ha; cases ha
  | cons x l ih =>
      intro a ha init
      simp only [List.foldl_cons]
      rcases List.mem_cons.mp ha with rfl | ha
      · exact le_trans (le_max_right init a) (foldl_max_init_le l _)
      · exact ih a ha _

theorem foldl_max_eq_or_mem : ∀ (l : List ℚ) (init : ℚ),
    l.foldl max init = init ∨ l.foldl max init ∈ l := by
  intro l
  induction l with
  | nil => intro init; left; rfl
  | cons x l ih =>
      intro init
      simp only [List.foldl_cons]
      rcases ih (max init x) with h | h
      · rcases max_choice init x with hm | hm
        · left; rw [h, hm]
        · right; rw [h, hm]; exact List.mem_cons_self x l
      · right; exact List.mem_cons_of_mem x h

theorem foldl_bumpBin_spec (idades : List ℚ) :
    ∀ (bins : List ℕ),
      (∀ a ∈ idades, 0 < a ∧ (1 ≤ a → binIndex a < (bins.length : ℤ))) →
      (idades.foldl bumpBin bins).length = bins.length ∧
      (idades.foldl bumpBin bins).sum
        = bins.sum + (idades.filter (fun a => 1 ≤ a)).length := by
  induction idades with
  | nil => intro bins _; simp
  | cons a rest ih =>
      intro bins h
      obtain ⟨hpos, hlt⟩ := h a (List.mem_cons_self a rest)
      simp only [List.foldl_cons, List.filter_cons]
      by_cases h1 : (1 : ℚ) ≤ a
      · have hi0 : 0 ≤ binIndex a := (binIndex_nonneg_iff a).mpr h1
        have hilt := hlt h1
        have hset : bumpBin bins a =
            bins.set (binIndex a).toNat (bins.getD (binIndex a).toNat 0 + 1) := by
          unfold bumpBin
          rw [if_pos ⟨hi0, hilt⟩]
        have hlen : (bumpBin bins a).length = bins.length := bumpBin_length bins a
        have harg : ∀ b ∈ rest, 0 < b ∧ (1 ≤ b → binIndex b < ((bumpBin bins a).length : ℤ)) := by
          intro b hb
          obtain ⟨h3, h4⟩ := h b (List.mem_cons_of_mem a hb)
          exact ⟨h3, fun hb1 => by rw [hlen]; exact h4 hb1⟩
        obtain ⟨ihlen, ihsum⟩ := ih (bumpBin bins a) harg
        have hidx : (binIndex a).toNat < bins.length := by omega
        constructor
        · rw [ihlen, hlen]
        · rw [ihsum]
          rw [show (bumpBin bins a).sum = bins.sum + 1 from by
            rw [hset]; exact sum_set_getD_add_one bins _ hidx]
          rw [if_pos (by simpa using h1)]
          simp only [List.length_cons]
          omega
      · have hbump : bumpBin bins a = bins := by
          unfold bumpBin
          rw [if_neg]
          rintro ⟨hi0, _⟩
          exact h1 ((binIndex_nonneg_iff a).mp hi0)
        have harg : ∀ b ∈ rest, 0 < b ∧ (1 ≤ b → binIndex b < ((bumpBin bins a).length : ℤ)) := by
          intro b hb
          obtain ⟨h3, h4⟩ := h b (List.mem_cons_of_mem a hb)
          exact ⟨h3, fun hb1 => by rw [hbump]; exact h4 hb1⟩
        obtain ⟨ihlen, ihsum⟩ := ih (bumpBin bins a) harg
        rw [if_neg (by simp only [decide_eq_true_eq]; exact h1), hbump]
        rw [hbump] at ihlen ihsum
        exact ⟨ihlen, ihsum⟩

theorem extractIdades_mem_pos {ds : List JVal} {ages : List ℚ}
    (h : extractIdades ds = some ages) : ∀ a ∈ ages, 0 < a := by
  intro a ha
  unfold extractIdades at h
  cases hm : mapThrow resolveIdade ds with
  | none => rw [hm] at h; cases h
  | some vs =>
      rw [hm] at h
      rw [show (some vs).map (fun vs => vs.filterMap idadeValue)
            = some (vs.filterMap idadeValue) from rfl] at h
      cases h
      rcases List.mem_filterMap.mp ha with ⟨v, _, hv⟩
      cases v with
      | jnum n =>
          cases n with
          | fin q =>
              simp only [idadeValue] at hv
              split at hv
              · cases hv; assumption
              · cases hv
          | nan => simp [idadeValue] at hv
      | jundef => simp [idadeValue] at hv
      | jnull => simp [idadeValue] at hv
      | jbool b => simp [idadeValue] at hv
      | jstr s => simp [idadeValue] at hv
      | jobj fs => simp [idadeValue] at hv
      | jarr xs => simp [idadeValue] at hv

theorem ceil_intCast_div_ten (n : ℤ) : ⌈(n : ℚ) / 10⌉ = (n + 9) / 10 := by
  rw [Int.ceil_eq_iff]
  have hb1 : 10 * ((n + 9) / 10) ≤ n + 9 := by omega
  have hb2 : n + 9 < 10 * ((n + 9) / 10) + 10 := by omega
  have hc1 : ((10 * ((n + 9) / 10) : ℤ) : ℚ) ≤ ((n + 9 : ℤ) : ℚ) := by exact_mod_cast hb1
  have hc2 : ((n + 9 : ℤ) : ℚ) < ((10 * ((n + 9) / 10) + 10 : ℤ) : ℚ) := by exact_mod_cast hb2
  have hb3 : n ≤ 10 * ((n + 9) / 10) := by omega
  have hc3 : ((n : ℤ) : ℚ) ≤ ((10 * ((n + 9) / 10) : ℤ) : ℚ) := by exact_mod_cast hb3
  push_cast at hc1 hc2 hc3
  constructor
  · rw [lt_div_iff₀ (by norm_num : (0 : ℚ) < 10)]
    linarith
  · rw [div_le_iff₀ (by norm_num : (0 : ℚ) < 10)]
    linarith

/-- For an integral bound `n ≥ 1` the number of bins is `⌈n / 10⌉`, the
count the specification states. -/
theorem numBins_intCast (n : ℤ) (hn : 1 ≤ n) :
    (numBins (n : ℚ) : ℤ) = ⌈(n : ℚ) / 10⌉ := by
  have hb : (1 : ℚ) ≤ (n : ℚ) := by exact_mod_cast hn
  have hfl : ⌊(n : ℚ)⌋ = n := Int.floor_intCast n
  unfold numBins
  rw [if_neg (not_lt.mpr hb), hfl, ceil_intCast_div_ten]
  have hnn : 0 ≤ (n - 1) / 10 := Int.ediv_nonneg (by omega) (by norm_num)
  push_cast [Int.toNat_of_nonneg hnn]
  omega

/-! ## Date-filter lemmas -/

theorem filtrarPorData_cons (c : JVal) (cs : List JVal) (i f : String) :
    filtrarPorData (c :: cs) i f =
      match keepCaso i f c, filtrarPorData cs i f with
      | some true, some rest => some (c :: rest)
      | some false, some rest => some rest
      | _, _ => none := rfl

theorem filtrarPorData_eq_filter (casos : List JVal) (i f : String)
    (h : ∀ c ∈ casos, keepCaso i f c ≠ none) :
    filtrarPorData casos i f =
      some (casos.filter (fun c => (keepCaso i f c).getD false)) := by
  induction casos with
  | nil => rfl
  | cons c cs ih =>
      have hc := h c (List.mem_cons_self c cs)
      have hcs : ∀ x ∈ cs, keepCaso i f x ≠ none :=
        fun x hx => h x (List.mem_cons_of_mem c hx)
      rw [filtrarPorData_cons, ih hcs]
      cases hk : keepCaso i f c with
      | none => exact absurd hk hc
      | some b => cases b <;> simp [List.filter_cons, hk]

theorem keepCaso_isSome (i f : String) (caso : JVal)
    (h1 : caso ≠ jnull) (h2 : caso ≠ jundef) : keepCaso i f caso ≠ none := by
  unfold keepCaso
  cases caso <;> simp [getProp] at h1 h2 ⊢

theorem mapThrow_isSome (g : JVal → Option JVal) (l : List JVal)
    (h : ∀ c ∈ l, g c ≠ none) : ∃ out, mapThrow g l = some out := by
  induction l with
  | nil => exact ⟨[], rfl⟩
  | cons c cs ih =>
      obtain ⟨out, hout⟩ := ih (fun x hx => h x (List.mem_cons_of_mem c hx))
      cases hg : g c with
      | none => exact absurd hg (h c (List.mem_cons_self c cs))
      | some v => exact ⟨v :: out, by simp [mapThrow, hg, hout]⟩

theorem resolveIdade_isSome (c : JVal) (h1 : c ≠ jnull) (h2 : c ≠ jundef) :
    resolveIdade c ≠ none := by
  unfold resolveIdade
  cases c <;> simp [getProp] at h1 h2 ⊢

/-! ## Nested-path resolution lemmas -/

theorem dottedResolve_falsy (ks : List String) :
    ∀ v : JVal, jsFalsy v → dottedResolve v ks = v := by
  induction ks with
  | nil => intro v _; rfl
  | cons k ks ih =>
      intro v hv
      unfold dottedResolve
      simp only [List.foldl_cons, hv, if_pos]
      exact ih v hv

theorem dottedResolve_cons_truthy (v : JVal) (k : String) (ks : List String)
    (hv : jsFalsy v = false) :
    dottedResolve v (k :: ks) = dottedResolve (getPropTruthy v k) ks := by
  unfold dottedResolve
  simp [List.foldl_cons, hv]

theorem dottedResolve_missing (fs : List (String × JVal)) (k : String) (ks : List String)
    (h : fs.find? (fun p => p.1 == k) = none) :
    dottedResolve (jobj fs) (k :: ks) = jundef := by
  rw [dottedResolve_cons_truthy _ _ _ (by rfl)]
  rw [show getPropTruthy (jobj fs) k = lookupField fs k from rfl]
  rw [show lookupField fs k = jundef from by simp [lookupField, h]]
  exact dottedResolve_falsy ks jundef rfl

/-! ## Claim theorems -/

/-- C3, counterexample: the claim says a record whose `data_do_caso` is
present but unparseable is excluded for every choice of bounds, including
both bounds absent.  For the record `{data_do_caso: "banana"}` and empty
bounds the code keeps the record: `"banana"` is truthy, so the falsy
check passes, and with both bounds `null` the guard
`(!dataInicio || …) && (!dataFim || …)` short-circuits to `true` without
ever comparing the `Invalid Date`. -/
theorem C3_counterexample :
    parseDateStr "banana" = none
    ∧ filtrarPorData [jobj [("data_do_caso", jstr "banana")]] "" "" =
        some [jobj [("data_do_caso", jstr "banana")]] :=
  ⟨rfl, rfl⟩

/-- C3, amended: a record whose `data_do_caso` is missing or otherwise
falsy (`undefined`, `null`, `false`, `0`, `NaN`, `""`) is excluded
regardless of bounds; a record whose field is truthy but does not parse
to a valid date is excluded iff at least one bound is present, and is
included when both bounds are absent. -/
theorem C3_amended (caso : JVal) (v : JVal) (i f : String)
    (hv : getProp caso "data_do_caso" = some v) :
    (jsFalsy v = true → keepCaso i f caso = some false)
    ∧ (jsFalsy v = false → jsNewDate v = none →
        keepCaso i f caso = some ((i == "") && (f == ""))) := by
  constructor
  · intro hfal
    unfold keepCaso
    rw [hv]
    simp [hfal]
  · intro hfal hdate
    unfold keepCaso
    rw [hv]
    simp only [Option.map_some']
    rw [if_neg (by simp [hfal])]
    rw [hdate]
    congr 1
    cases hi : i == "" <;> cases hf : f == "" <;> simp [geOpt, leOpt, hi, hf]

/-- C3, witness for the amended claim at a record with a missing date
field (which reads as the falsy `undefined`). -/
theorem C3_amended_witness : keepCaso "2024-01-01" "" (jobj []) = some false :=
  (C3_amended (jobj []) jundef "2024-01-01" "" rfl).1 rfl

/-- C4 (P1): a record whose `data_do_caso` is a string parsing to the
valid date `d` is kept by the filter iff `(start absent ∨ start ≤ d)` and
`(end absent ∨ d ≤ end)`; both bounds are inclusive, an absent bound
leaves that side unconstrained, and `boundDate` interprets each raw
input string as its optional bound. -/
theorem C4_filter_inclusive (caso : JVal) (s : String) (d : ℤ) (i f : String)
    (oi og : Option ℤ)
    (hv : getProp caso "data_do_caso" = some (jstr s))
    (hd : parseDateStr s = some d)
    (hi : boundDate i = some oi)
    (hf : boundDate f = some og) :
    filtrarPorData [caso] i f =
      some (if (oi.all fun x => decide (x ≤ d)) && (og.all fun x => decide (d ≤ x))
            then [caso] else []) := by
  have hs : s ≠ "" := by
    intro hs
    rw [hs] at hd
    cases hd
  have hfal : jsFalsy (jstr s) = false := by simp [jsFalsy, hs]
  have hkeep : keepCaso i f caso =
      some ((oi.all fun x => decide (x ≤ d)) && (og.all fun x => decide (d ≤ x))) := by
    unfold keepCaso
    rw [hv]
    simp only [Option.map_some']
    rw [if_neg (by simp [hfal])]
    rw [show jsNewDate (jstr s) = some d from hd]
    congr 1
    congr 1
    · by_cases hie : i = ""
      · rw [hie] at hi
        have : oi = none := by
          simp [boundDate] at hi
          exact hi.symm
        subst this
        simp [hie, geOpt]
      · rw [show boundDate i = (parseDateStr i).map some from by simp [boundDate, hie]] at hi
        cases hpi : parseDateStr i with
        | none => rw [hpi] at hi; cases hi
        | some t =>
            rw [hpi] at hi
            simp only [Option.map_some', Option.some.injEq] at hi
            subst hi
            rw [if_neg (by simp [hie])]
            simp [geOpt, hpi]
    · by_cases hfe : f = ""
      · rw [hfe] at hf
        have : og = none := by
          simp [boundDate] at hf
          exact hf.symm
        subst this
        simp [hfe, leOpt]
      · rw [show boundDate f = (parseDateStr f).map some from by simp [boundDate, hfe]] at hf
        cases hpf : parseDateStr f with
        | none => rw [hpf] at hf; cases hf
        | some t =>
            rw [hpf] at hf
            simp only [Option.map_some', Option.some.injEq] at hf
            subst hf
            rw [if_neg (by simp [hfe])]
            simp [leOpt, hpf]
  rw [filtrarPorData_cons, hkeep]
  cases hb : (oi.all fun x => decide (x ≤ d)) && (og.all fun x => decide (d ≤ x)) <;>
    simp [filtrarPorData]

/-- C4, witness: the record dated 2024-01-15 with bounds
[2024-01-01, 2024-01-31] is kept. -/
theorem C4_witness :
    filtrarPorData [jobj [("data_do_caso", jstr "2024-01-15")]]
        "2024-01-01" "2024-01-31" =
      some (if ((some (86400000 * 19723) : Option ℤ).all
                  fun x => decide (x ≤ 86400000 * 19737))
              && ((some (86400000 * 19753) : Option ℤ).all
                  fun x => decide ((86400000 * 19737 : ℤ) ≤ x))
            then [jobj [("data_do_caso", jstr "2024-01-15")]] else []) :=
  C4_filter_inclusive (jobj [("data_do_caso", jstr "2024-01-15")]) "2024-01-15"
    (86400000 * 19737) "2024-01-01" "2024-01-31"
    (some (86400000 * 19723)) (some (86400000 * 19753))
    rfl (by decide) (by decide) (by decide)

/-- C9, counterexample: the claim says every aggregation-core function is
total over any well-formed-JSON input, but the JSON array `[null]` makes
both the date filter and the histogram throw a `TypeError`
(reading `data_do_caso` / `vitima` of `null`), modelled by `none`. -/
theorem C9_counterexample :
    filtrarPorData [jnull] "" "" = none
    ∧ atualizarGraficoDistribuicao [jnull] = none :=
  ⟨rfl, rfl⟩

/-- C9, amended: the date filter and the age histogram terminate and
return their documented output on every well-formed-JSON input whose
records are not `null` (property access on a non-nullish value never
throws); the occurrence counter additionally tolerates `null` records
(its `try/catch` and the falsy short-circuit skip them silently); the
coefficient ranker is total and length-preserving; and every function
produces its documented empty-input output. -/
theorem C9_amended :
    (∀ (casos : List JVal) (i f : String),
        (∀ c ∈ casos, c ≠ jnull ∧ c ≠ jundef) →
        ∃ out, filtrarPorData casos i f = some out)
    ∧ (∀ ds : List JVal, (∀ c ∈ ds, c ≠ jnull ∧ c ≠ jundef) →
        ∃ out, atualizarGraficoDistribuicao ds = some out)
    ∧ (∀ (dados : List JVal) (chave : String),
        contarOcorrencias (jnull :: dados) chave = contarOcorrencias dados chave)
    ∧ (∀ data : List (String × JVal), (sortedEntries data).length = data.length)
    ∧ filtrarPorData [] "" "" = some []
    ∧ contarOcorrencias [] "tipo_do_caso" = []
    ∧ atualizarGraficoDistribuicao [] = some (histLabels 100, List.replicate 10 0)
    ∧ sortedEntries [] = [] := by
  refine ⟨?_, ?_, ?_, ?_, rfl, rfl, rfl, rfl⟩
  · intro casos i f h
    exact ⟨_, filtrarPorData_eq_filter casos i f
      (fun c hc => keepCaso_isSome i f c (h c hc).1 (h c hc).2)⟩
  · intro ds h
    obtain ⟨vs, hvs⟩ := mapThrow_isSome resolveIdade ds
      (fun c hc => resolveIdade_isSome c (h c hc).1 (h c hc).2)
    refine ⟨(histLabels (histBound (vs.filterMap idadeValue)),
      histCounts (vs.filterMap idadeValue) (numBins (histBound (vs.filterMap idadeValue)))), ?_⟩
    unfold atualizarGraficoDistribuicao extractIdades
    rw [hvs]
    rfl
  · intro dados chave
    unfold contarOcorrencias rawCounts
    congr 1
    simp only [List.foldl_cons]
    congr 1
    unfold resolveChave
    by_cases hdot : chave.data.contains '.'
    · rw [if_pos hdot]
      rw [dottedResolve_falsy _ jnull rfl]
    · rw [if_neg hdot]
      rfl
  · intro data
    have h1 : (sortedEntries data).length = (processEntries data).length :=
      (insertionSort_perm _ _).length_eq
    have h2 : (processEntries data).length = (jsOwnOrder data).length := by
      unfold processEntries
      simp
    have h3 : (jsOwnOrder data).length = data.length := (jsOwnOrder_perm data).length_eq
    omega

/-- C9, witness: the amended totality claims applied at a one-record
non-null input. -/
theorem C9_witness : ∃ out, filtrarPorData [jobj []] "" "" = some out :=
  C9_amended.1 [jobj []] "" ""
    (fun c hc => by
      rw [List.mem_singleton] at hc
      subst hc
      exact ⟨fun h => JVal.noConfusion h, fun h => JVal.noConfusion h⟩)

/-- C2, counterexample: the claim says the counter's key order is always
first-occurrence order, never numeric.  Counting the field values 30 then
5 resolves to the keys "30" then "5" in first-occurrence order, yet the
count object enumerates them "5", "30": both are canonical array-index
keys, which a JavaScript plain object reports first, in ascending numeric
order. -/
theorem C2_counterexample :
    ([jobj [("t", jnum (.fin 30))], jobj [("t", jnum (.fin 5))]].filterMap
        (keyOf? "t")) = ["30", "5"]
    ∧ (contarOcorrencias [jobj [("t", jnum (.fin 30))], jobj [("t", jnum (.fin 5))]]
        "t").map Prod.fst = ["5", "30"]
    ∧ (["5", "30"] : List String) ≠ ["30", "5"] := by
  refine ⟨rfl, rfl, by decide⟩

/-- C2, amended: the counter's backing object stores one entry per
distinct resolved key, created in first-occurrence order and counting the
key's occurrences; the object is then enumerated with canonical
array-index keys first in ascending numeric order, followed by the
remaining keys in first-occurrence order.  When no key is an array index
(e.g. categorical strings such as "A", "B", "C") the result is exactly
first-occurrence order, as in the claim's example. -/
theorem C2_amended (dados : List JVal) (chave : String) :
    (rawCounts dados chave).map Prod.fst = firstOccur (dados.filterMap (keyOf? chave))
    ∧ (∀ k, lookupCount (rawCounts dados chave) k
        = (dados.filterMap (keyOf? chave)).count k)
    ∧ (∃ idxPart,
        contarOcorrencias dados chave =
          idxPart ++ (rawCounts dados chave).filter (fun p => !isArrayIndex p.1)
        ∧ List.Perm idxPart ((rawCounts dados chave).filter (fun p => isArrayIndex p.1))
        ∧ idxPart.Pairwise (fun a b => numKey a.1 ≤ numKey b.1))
    ∧ ((∀ p ∈ rawCounts dados chave, isArrayIndex p.1 = false) →
        contarOcorrencias dados chave = rawCounts dados chave)
    ∧ contarOcorrencias
        [jobj [("t", jstr "A")], jobj [("t", jstr "B")], jobj [("t", jstr "A")],
         jobj [("t", jstr "C")]] "t" = [("A", 2), ("B", 1), ("C", 1)] := by
  refine ⟨?_, ?_, ?_, ?_, by decide⟩
  · rw [rawCounts_eq]
    exact countsList_map_fst _
  · intro k
    rw [rawCounts_eq]
    exact countsList_lookup _ k
  · refine ⟨insertionSort (fun a b => Nat.ble (numKey a.1) (numKey b.1))
      ((rawCounts dados chave).filter (fun p => isArrayIndex p.1)), rfl, ?_, ?_⟩
    · exact insertionSort_perm _ _
    · have hp := insertionSort_pairwise (fun a b => Nat.ble (numKey a.1) (numKey b.1))
        (fun a b => by
          rcases Nat.le_total (numKey a.1) (numKey b.1) with h | h <;>
            simp [Nat.ble_eq, h])
        (fun a b c hab hbc => by
          simp only [Nat.ble_eq] at hab hbc ⊢
          omega)
        ((rawCounts dados chave).filter (fun p => isArrayIndex p.1))
      exact hp.imp (fun h => by simpa [Nat.ble_eq] using h)
  · intro h
    exact jsOwnOrder_eq_of_no_index _ h

/-- C2, witness: the amended no-array-index case applied to a concrete
categorical input. -/
theorem C2_amended_witness :
    contarOcorrencias [jobj [("t", jstr "A")]] "t" = rawCounts [jobj [("t", jstr "A")]] "t" :=
  (C2_amended [jobj [("t", jstr "A")]] "t").2.2.2.1 (by decide)

/-- C5, counterexample: the claim says nested-path traversal
short-circuits to "absent" the moment an intermediate value is missing or
not traversable, and that such a record is skipped.  For the record
`{v: 0}` and path `"v.age"` the intermediate value `0` is not a
traversable mapping — `specResolvePath` (the spec's resolution) is absent —
yet the code's `reduce((o, k) => o && o[k])` short-circuits on the falsy
`0` returning `0` itself, and the record is counted under the key "0". -/
theorem C5_counterexample :
    jsSplitDot "v.age" = ["v", "age"]
    ∧ specResolvePath (jobj [("v", jnum (.fin 0))]) ["v", "age"] = none
    ∧ contarOcorrencias [jobj [("v", jnum (.fin 0))]] "v.age" = [("0", 1)]
    ∧ ([("0", 1)] : List (String × ℕ)) ≠ [] := by
  refine ⟨rfl, rfl, rfl, by decide⟩

/-- C5, amended: for a dotted key the resolution never throws; it
short-circuits returning the current accumulator the moment that value is
falsy — in particular a missing key or nullish intermediate yields
`undefined` and the record is skipped, but a falsy non-nullish
intermediate (`0`, `""`, `false`, `NaN`) is returned as the resolved
value and the record is counted under that value's key; a record
contributes exactly when its resolved value is neither `undefined` nor
`null`, and the claim's example still counts `{5: 2}`. -/
theorem C5_amended (chave : String) (hdot : chave.data.contains '.' = true) :
    (∀ caso, resolveChave chave caso = some (dottedResolve caso (jsSplitDot chave)))
    ∧ (∀ (v : JVal) (ks : List String), jsFalsy v = true → dottedResolve v ks = v)
    ∧ (∀ (fs : List (String × JVal)) (k : String) (ks : List String),
        fs.find? (fun p => p.1 == k) = none →
        dottedResolve (jobj fs) (k :: ks) = jundef)
    ∧ (∀ (caso : JVal) (k : String) (ks : List String), jsFalsy caso = false →
        dottedResolve caso (k :: ks) = dottedResolve (getPropTruthy caso k) ks)
    ∧ (∀ (dados : List JVal) (k : String),
        lookupCount (rawCounts dados chave) k = (dados.filterMap (keyOf? chave)).count k)
    ∧ contarOcorrencias
        [jobj [("v", jobj [("age", jnum (.fin 5))])], jobj [("v", jobj [])],
         jobj [("v", jobj [("age", jnum (.fin 5))])]] "v.age" = [("5", 2)] := by
  refine ⟨?_, ?_, ?_, ?_, ?_, by decide⟩
  · intro caso
    unfold resolveChave
    rw [if_pos hdot]
  · intro v ks hv
    exact dottedResolve_falsy ks v hv
  · intro fs k ks h
    exact dottedResolve_missing fs k ks h
  · intro caso k ks hcaso
    exact dottedResolve_cons_truthy caso k ks hcaso
  · intro dados k
    rw [rawCounts_eq]
    exact countsList_lookup _ k

/-- C5, witness: the amended resolution claims applied at the path
"v.age" and the record `{v: 0}`. -/
theorem C5_amended_witness :
    resolveChave "v.age" (jobj [("v", jnum (.fin 0))]) =
      some (dottedResolve (jobj [("v", jnum (.fin 0))]) (jsSplitDot "v.age")) :=
  (C5_amended "v.age" (by decide)).1 (jobj [("v", jnum (.fin 0))])

/-- C1, counterexample: the claim says the histogram always builds exactly
`ceil(bound / 10)` bins.  For the single (well-formed JSON) age `100.5`
the bound is `100.5` and the loop builds 10 bins (its last start is 91),
while `ceil(100.5 / 10) = 11`. -/
theorem C1_counterexample :
    extractIdades [jobj [("vitima", jobj [("idade", jnum (.fin (mkRat 201 2)))])]] =
        some [mkRat 201 2]
    ∧ histBound [mkRat 201 2] = mkRat 201 2
    ∧ (atualizarGraficoDistribuicao
        [jobj [("vitima", jobj [("idade", jnum (.fin (mkRat 201 2)))])]]).map
          (fun out => out.1.length) = some 10
    ∧ ⌈(mkRat 201 2 : ℚ) / 10⌉ = 11
    ∧ (10 : ℕ) ≠ 11 := by
  refine ⟨by decide, by decide, by decide, ?_, by decide⟩
  rw [Int.ceil_eq_iff]
  rw [lt_div_iff₀ (by norm_num : (0 : ℚ) < 10), div_le_iff₀ (by norm_num : (0 : ℚ) < 10)]
  constructor
  · rw [show ((11 : ℤ) : ℚ) - 1 = 10 from by norm_num]
    rw [show ((10 : ℚ) * 10 : ℚ) = 100 from by norm_num]
    decide
  · rw [show (((11 : ℤ) : ℚ) * 10 : ℚ) = 110 from by norm_num]
    decide

/-- C1, amended: the bound is `max(100, max extracted age)`; the loop
builds one bin per start `i = 1 + 10k` with `i ≤ bound`, labelled
`"i-(i+9)"`, so the bin count is `⌊(bound - 1)/10⌋ + 1`, which equals
`ceil(bound / 10)` whenever the bound is an integer (in particular for
integer ages and for the default bound 100); ages are assigned by
`index = floor((age - 1)/10)`.  The claim's example (ages 5 and 150 give
bound 150, 15 bins "1-10" … "141-150", age 5 in bin 0, age 150 in bin 14)
is checked in the witness. -/
theorem C1_amended (ds : List JVal) (ages : List ℚ)
    (h : extractIdades ds = some ages) :
    (100 ≤ histBound ages ∧ (∀ a ∈ ages, a ≤ histBound ages) ∧
      (histBound ages = 100 ∨ histBound ages ∈ ages))
    ∧ atualizarGraficoDistribuicao ds =
        some (histLabels (histBound ages), histCounts ages (numBins (histBound ages)))
    ∧ histLabels (histBound ages) = (List.range (numBins (histBound ages))).map binLabel
    ∧ (∀ k : ℕ, k < numBins (histBound ages) ↔ (1 + 10 * k : ℚ) ≤ histBound ages)
    ∧ (∀ k : ℕ, binLabel k = (1 + 10 * k : ℤ).repr ++ "-" ++ (10 * k + 10 : ℤ).repr)
    ∧ (∀ n : ℤ, histBound ages = (n : ℚ) →
        (numBins (histBound ages) : ℤ) = ⌈(n : ℚ) / 10⌉)
    ∧ (∀ a ∈ ages, binIndex a = ⌊(a - 1) / 10⌋)
    ∧ (numBins (histBound ages) : ℤ) = ⌊(histBound ages - 1) / 10⌋ + 1 := by
  have hb100 : (100 : ℚ) ≤ histBound ages := foldl_max_init_le ages 100
  have hb1 : (1 : ℚ) ≤ histBound ages := le_trans (by norm_num) hb100
  refine ⟨⟨hb100, fun a ha => mem_le_foldl_max ages a ha 100, ?_⟩, ?_, rfl,
    fun k => lt_numBins_iff _ k, fun k => rfl, ?_, fun a _ => binIndex_eq_floor a, ?_⟩
  · exact foldl_max_eq_or_mem ages 100
  · unfold atualizarGraficoDistribuicao
    rw [h]
    rfl
  · intro n hn
    rw [hn]
    refine numBins_intCast n ?_
    have : (1 : ℚ) ≤ (n : ℚ) := hn ▸ hb1
    exact_mod_cast this
  · exact numBins_eq_floor _ hb1

/-- C1, witness: the amended claim applied to records with ages 5 and 150,
together with the claim's own example facts — bound 150, 15 bins labelled
"1-10" through "141-150", age 5 counted in bin 0 and age 150 in bin 14. -/
theorem C1_amended_witness :
    extractIdades
        [jobj [("vitima", jobj [("idade", jnum (.fin 5))])],
         jobj [("vitima", jobj [("idade", jnum (.fin 150))])]] = some [5, 150]
    ∧ ((100 ≤ histBound [(5 : ℚ), 150] ∧ (∀ a ∈ [(5 : ℚ), 150], a ≤ histBound [(5 : ℚ), 150]) ∧
        (histBound [(5 : ℚ), 150] = 100 ∨ histBound [(5 : ℚ), 150] ∈ [(5 : ℚ), 150]))
      ∧ atualizarGraficoDistribuicao
          [jobj [("vitima", jobj [("idade", jnum (.fin 5))])],
           jobj [("vitima", jobj [("idade", jnum (.fin 150))])]] =
          some (histLabels (histBound [(5 : ℚ), 150]),
            histCounts [(5 : ℚ), 150] (numBins (histBound [(5 : ℚ), 150])))
      ∧ histLabels (histBound [(5 : ℚ), 150]) =
          (List.range (numBins (histBound [(5 : ℚ), 150]))).map binLabel
      ∧ (∀ k : ℕ, k < numBins (histBound [(5 : ℚ), 150]) ↔
          (1 + 10 * k : ℚ) ≤ histBound [(5 : ℚ), 150])
      ∧ (∀ k : ℕ, binLabel k = (1 + 10 * k : ℤ).repr ++ "-" ++ (10 * k + 10 : ℤ).repr)
      ∧ (∀ n : ℤ, histBound [(5 : ℚ), 150] = (n : ℚ) →
          (numBins (histBound [(5 : ℚ), 150]) : ℤ) = ⌈(n : ℚ) / 10⌉)
      ∧ (∀ a ∈ [(5 : ℚ), 150], binIndex a = ⌊(a - 1) / 10⌋)
      ∧ (numBins (histBound [(5 : ℚ), 150]) : ℤ) = ⌊(histBound [(5 : ℚ), 150] - 1) / 10⌋ + 1)
    ∧ histBound [(5 : ℚ), 150] = 150
    ∧ numBins 150 = 15
    ∧ histLabels 150 = ["1-10", "11-20", "21-30", "31-40", "41-50", "51-60", "61-70",
        "71-80", "81-90", "91-100", "101-110", "111-120", "121-130", "131-140", "141-150"]
    ∧ binIndex 5 = 0 ∧ binIndex 150 = 14
    ∧ histCounts [(5 : ℚ), 150] 15 = [1, 0, 0, 0, 0, 0, 0, 0, 0, 0, 0, 0, 0, 0, 1] :=
  ⟨by decide,
   C1_amended
     [jobj [("vitima", jobj [("idade", jnum (.fin 5))])],
      jobj [("vitima", jobj [("idade", jnum (.fin 150))])]]
     [(5 : ℚ), 150] (by decide),
   by decide, by decide, by decide, by decide, by decide, by decide⟩

/-- C6 (P7): the extraction keeps a resolved victim-age value iff it is a
number, not `NaN`, and strictly positive; every other resolved value
(missing, non-numeric, zero, negative, `NaN`) is dropped by the filter
rather than raising an error.  (JSON cannot denote `±Infinity`, so in the
model every number other than `NaN` is finite.) -/
theorem C6_age_validity (ds : List JVal) (vs : List JVal)
    (h : mapThrow resolveIdade ds = some vs) :
    extractIdades ds = some (vs.filterMap idadeValue)
    ∧ (∀ (v : JVal) (q : ℚ), idadeValue v = some q ↔ v = jnum (.fin q) ∧ 0 < q)
    ∧ idadeValue (jnum .nan) = none := by
  refine ⟨?_, ?_, rfl⟩
  · unfold extractIdades
    rw [h]
    rfl
  · intro v q
    constructor
    · intro hv
      cases v with
      | jnum n =>
          cases n with
          | fin p =>
              simp only [idadeValue] at hv
              split at hv
              · cases hv
                exact ⟨rfl, by assumption⟩
              · cases hv
          | nan => simp [idadeValue] at hv
      | jundef => simp [idadeValue] at hv
      | jnull => simp [idadeValue] at hv
      | jbool b => simp [idadeValue] at hv
      | jstr s => simp [idadeValue] at hv
      | jobj fs => simp [idadeValue] at hv
      | jarr xs => simp [idadeValue] at hv
    · rintro ⟨rfl, hq⟩
      simp [idadeValue, hq]

/-- C6, witness: over resolved ages −5, 0, "x", NaN, 30 only 30 is kept. -/
theorem C6_witness :
    extractIdades
        [jobj [("vitima", jobj [("idade", jnum (.fin (-5)))])],
         jobj [("vitima", jobj [("idade", jnum (.fin 0))])],
         jobj [("vitima", jobj [("idade", jstr "x")])],
         jobj [("vitima", jobj [("idade", jnum .nan)])],
         jobj [("vitima", jobj [("idade", jnum (.fin 30))])]] =
      some ([jnum (.fin (-5)), jnum (.fin 0), jstr "x", jnum .nan,
             jnum (.fin 30)].filterMap idadeValue)
    ∧ ([jnum (.fin (-5)), jnum (.fin 0), jstr "x", jnum .nan,
        jnum (.fin 30)] : List JVal).filterMap idadeValue = [30] :=
  ⟨(C6_age_validity
      [jobj [("vitima", jobj [("idade", jnum (.fin (-5)))])],
       jobj [("vitima", jobj [("idade", jnum (.fin 0))])],
       jobj [("vitima", jobj [("idade", jstr "x")])],
       jobj [("vitima", jobj [("idade", jnum .nan)])],
       jobj [("vitima", jobj [("idade", jnum (.fin 30))])]]
      [jnum (.fin (-5)), jnum (.fin 0), jstr "x", jnum .nan, jnum (.fin 30)]
      rfl).1, by decide⟩

/-- C7 (P5): whenever no valid age is extracted — in particular on the
empty record sequence — the histogram still has exactly 10 bins labelled
"1-10" through "91-100" with every count 0. -/
theorem C7_empty_histogram (ds : List JVal) (h : extractIdades ds = some []) :
    atualizarGraficoDistribuicao ds =
      some (["1-10", "11-20", "21-30", "31-40", "41-50", "51-60", "61-70",
             "71-80", "81-90", "91-100"], [0, 0, 0, 0, 0, 0, 0, 0, 0, 0]) := by
  unfold atualizarGraficoDistribuicao
  rw [h]
  rfl

/-- C7, witness: the empty record sequence. -/
theorem C7_witness :
    atualizarGraficoDistribuicao [] =
      some (["1-10", "11-20", "21-30", "31-40", "41-50", "51-60", "61-70",
             "71-80", "81-90", "91-100"], [0, 0, 0, 0, 0, 0, 0, 0, 0, 0]) :=
  C7_empty_histogram [] rfl

/-- C8, counterexample: the claim says ties are always broken by the
coefficient map's original insertion order.  For the map `{"2": 1, "1": 1}`
(a tie on magnitude, `"2"` inserted first) the ranker outputs `"1"` before
`"2"`: both names are canonical array-index keys, so `Object.entries`
already reorders them numerically before the stable sort runs. -/
theorem C8_counterexample :
    sortedEntries [("2", jnum (.fin 1)), ("1", jnum (.fin 1))] =
        [("1", .fin 1), ("2", .fin 1)]
    ∧ (([("1", JNum.fin 1), ("2", JNum.fin 1)] : List (String × JNum)).map Prod.fst
        = ["1", "2"])
    ∧ (["1", "2"] : List String) ≠ ["2", "1"] := by
  refine ⟨by decide, rfl, by decide⟩

/-- C8, amended: the ranker's output is a permutation of the processed
(name, signed value) pairs — signs preserved — sorted by non-increasing
magnitude, and any two entries of equal magnitude keep their relative
order from `Object.entries`'s enumeration of the map (array-index-like
names first in ascending numeric order, then the rest in insertion
order); when no name is array-index-like the enumeration is exactly the
original insertion order, and the claim's example ranks
{a: −5, b: 2, c: 5, d: −1} as a, c, b, d with signs intact. -/
theorem C8_amended (data : List (String × JVal)) :
    List.Perm (sortedEntries data) (processEntries data)
    ∧ (sortedEntries data).Pairwise (fun a b => jabsVal b.2 ≤ jabsVal a.2)
    ∧ (∀ a b : String × JNum, jabsVal a.2 = jabsVal b.2 →
        List.Sublist [a, b] (processEntries data) →
        List.Sublist [a, b] (sortedEntries data))
    ∧ ((∀ p ∈ data, isArrayIndex p.1 = false) →
        processEntries data = data.map (fun p => (p.1, toNumber p.2)))
    ∧ sortedEntries [("a", jnum (.fin (-5))), ("b", jnum (.fin 2)),
        ("c", jnum (.fin 5)), ("d", jnum (.fin (-1)))] =
        [("a", .fin (-5)), ("c", .fin 5), ("b", .fin 2), ("d", .fin (-1))] := by
  refine ⟨insertionSort_perm _ _, ?_, ?_, ?_, by decide⟩
  · have hp := insertionSort_pairwise
      (fun a b : String × JNum => decide (jabsVal b.2 ≤ jabsVal a.2))
      (fun a b => by
        rcases le_total (jabsVal b.2) (jabsVal a.2) with h | h <;> simp [h])
      (fun a b c hab hbc => by
        simp only [decide_eq_true_eq] at hab hbc ⊢
        exact le_trans hbc hab)
      (processEntries data)
    exact hp.imp (fun h => by simpa using h)
  · intro a b hab hsub
    exact pair_sublist_insertionSort _ _ (by simp [hab]) hsub
  · intro h
    unfold processEntries
    rw [jsOwnOrder_eq_of_no_index _ h]

/-- C8, witness: the amended enumeration claim applied to a map with a
non-numeric name. -/
theorem C8_amended_witness :
    processEntries [("a", jnum (.fin 2))] =
      [("a", jnum (.fin 2))].map (fun p => (p.1, toNumber p.2)) :=
  (C8_amended [("a", jnum (.fin 2))]).2.2.2.1 (by decide)

/-- C10: the histogram's bin counts sum to the number of extracted valid
ages that are at least 1; every extracted age is strictly positive, and an
extracted age strictly between 0 and 1 gets index
`floor((age − 1)/10) = −1` and is counted in no bin, so it is present in
the extraction yet absent from every bin. -/
theorem C10_bin_sum (ds : List JVal) (ages : List ℚ) (out : List String × List ℕ)
    (h : extractIdades ds = some ages)
    (hout : atualizarGraficoDistribuicao ds = some out) :
    out.2.sum = (ages.filter (fun a => 1 ≤ a)).length
    ∧ (∀ a ∈ ages, 0 < a)
    ∧ (∀ a ∈ ages, a < 1 → binIndex a = -1 ∧ (⌊(a - 1) / 10⌋ : ℤ) = -1) := by
  have hpos := extractIdades_mem_pos h
  have hout' : out = (histLabels (histBound ages), histCounts ages (numBins (histBound ages))) := by
    unfold atualizarGraficoDistribuicao at hout
    rw [h] at hout
    rw [show (some ages).map (fun idades => (histLabels (histBound idades),
        histCounts idades (numBins (histBound idades)))) =
      some (histLabels (histBound ages), histCounts ages (numBins (histBound ages)))
      from rfl] at hout
    cases hout
    rfl
  subst hout'
  have hb100 : (100 : ℚ) ≤ histBound ages := foldl_max_init_le ages 100
  have hb1 : (1 : ℚ) ≤ histBound ages := le_trans (by norm_num) hb100
  refine ⟨?_, hpos, ?_⟩
  · have hspec := foldl_bumpBin_spec ages (List.replicate (numBins (histBound ages)) 0)
      (fun a ha => ⟨hpos a ha, fun _ => by
        rw [List.length_replicate]
        exact binIndex_lt_numBins (mem_le_foldl_max ages a ha 100) hb1⟩)
    have hz : (List.replicate (numBins (histBound ages)) 0).sum = 0 := by simp
    rw [show (histLabels (histBound ages), histCounts ages (numBins (histBound ages))).2 =
      histCounts ages (numBins (histBound ages)) from rfl]
    unfold histCounts
    rw [hspec.2, hz, Nat.zero_add]
  · intro a ha ha1
    exact ⟨binIndex_eq_neg_one (hpos a ha) ha1,
      by rw [← binIndex_eq_floor]; exact binIndex_eq_neg_one (hpos a ha) ha1⟩

/-- C10, witness: ages ½ and 5 — the half is extracted (positive) yet
lands in no bin, so the counts sum to 1. -/
theorem C10_witness :
    (["1-10", "11-20", "21-30", "31-40", "41-50", "51-60", "61-70",
      "71-80", "81-90", "91-100"], [1, 0, 0, 0, 0, 0, 0, 0, 0, 0]).2.sum =
        (([mkRat 1 2, 5] : List ℚ).filter (fun a => 1 ≤ a)).length
    ∧ (∀ a ∈ ([mkRat 1 2, 5] : List ℚ), 0 < a)
    ∧ (∀ a ∈ ([mkRat 1 2, 5] : List ℚ), a < 1 →
        binIndex a = -1 ∧ (⌊(a - 1) / 10⌋ : ℤ) = -1) :=
  C10_bin_sum
    [jobj [("vitima", jobj [("idade", jnum (.fin (mkRat 1 2)))])],
     jobj [("vitima", jobj [("idade", jnum (.fin 5))])]]
    [mkRat 1 2, 5]
    (["1-10", "11-20", "21-30", "31-40", "41-50", "51-60", "61-70",
      "71-80", "81-90", "91-100"], [1, 0, 0, 0, 0, 0, 0, 0, 0, 0])
    (by decide) (by decide)
